import Mathlib

/-!
Verification of the notebook cell text model
(src/vs/workbench/contrib/notebook/common/model/notebookCellTextModel.ts).

The TypeScript class `NotebookCellTextModel` is embedded shallowly: its
mutable fields become fields of the `Model` structure, each method becomes a
function from `Model` to its result paired with the updated `Model`, and the
events fired on the outputs channel are returned explicitly.  External
collaborators that are not part of src/ (the piece-tree text buffer, the
hash function from vs/base/common/hash, the UUID generator) are modelled
from the spec; each such definition carries a doc comment saying so.
-/

namespace NotebookCell

/-- Cell kind enumeration from notebookCommon (Markdown = 1, Code = 2). -/
inductive CellKind where
  | markdown : CellKind
  | code : CellKind
deriving DecidableEq

/-- One mime-typed representation entry inside an output record.
Modelled from the spec: the output DTO type lives in notebookCommon.ts,
outside src/; the spec describes an output as "an ordered list of
representation entries (each a mime-typed payload)". -/
structure IOutputItem where
  mime : String
  value : String
deriving DecidableEq

/-- An output record: a generation-unique identifier plus the list of
representation entries.  Modelled from the spec: NotebookCellOutputTextModel
is outside src/; the source here only reads `.outputs` and `.outputId` of an
output, which is what we keep. -/
structure ICellOutput where
  outputId : String
  outputs : List IOutputItem
deriving DecidableEq

/-- The cell metadata record (NotebookCellMetadata): a flat mapping of
optional flags.  The fields are the six keys the source reads
(getEvaluatedMetadata and cloneMetadata); an absent key is `none`.
The free-form `custom` payload is modelled as a number. -/
structure NotebookCellMetadata where
  editable : Option Bool
  breakpointMargin : Option Bool
  hasExecutionOrder : Option Bool
  inputCollapsed : Option Bool
  outputCollapsed : Option Bool
  custom : Option Nat
deriving DecidableEq

/-- The metadata record with every key absent (the `{}` default used by the
constructor when no metadata is supplied). -/
def emptyMetadata : NotebookCellMetadata :=
  { editable := none, breakpointMargin := none, hasExecutionOrder := none,
    inputCollapsed := none, outputCollapsed := none, custom := none }

/-- The per-key transient flags of TransientOptions.transientMetadata: a key
whose flag is `true` is excluded from identity hashing. -/
structure TransientCellMetadata where
  editable : Bool
  breakpointMargin : Bool
  hasExecutionOrder : Bool
  inputCollapsed : Bool
  outputCollapsed : Bool
  custom : Bool
deriving DecidableEq

/-- TransientOptions: immutable per-cell hashing configuration. -/
structure TransientOptions where
  transientOutputs : Bool
  transientMetadata : TransientCellMetadata
deriving DecidableEq

/-- Document-level metadata defaults read by getEvaluatedMetadata. -/
structure NotebookDocumentMetadata where
  cellEditable : Bool
  cellHasExecutionOrder : Bool
deriving DecidableEq

/-- The text buffer.  Modelled from the spec: the piece-tree buffer is an
external collaborator ("an indexed, rope/piece-table-like structure"), so we
keep only its observable content (already end-of-line normalized) and its
disposed flag. -/
structure TextBuffer where
  content : String
  disposed : Bool
deriving DecidableEq

/-- The empty, already-disposed placeholder buffer installed by dispose()
(`new PieceTreeTextBuffer([], '', '\n', false, false, true, true)` followed
by `.dispose()`). -/
def emptyDisposedTextBuffer : TextBuffer :=
  { content := "", disposed := true }

/-- State of a NotebookCellTextModel instance.  `textBuffer = none` means the
lazy buffer has not been materialized yet (`_textBuffer` undefined);
`contentListeners` counts the content-change listeners registered on the
buffer; `hashCache` is the nullable `_hash` field. -/
structure Model where
  uri : String
  handle : Nat
  source : String
  language : String
  cellKind : CellKind
  outputs : List ICellOutput
  metadata : NotebookCellMetadata
  transientOptions : TransientOptions
  textBuffer : Option TextBuffer
  contentListeners : Nat
  hashCache : Option Nat
deriving DecidableEq

/-- The constructor: outputs are wrapped one-for-one
(`outputs.map(op => new NotebookCellOutputTextModel(op))`), metadata defaults
to `{}`, the buffer is not yet materialized and the hash cache is null. -/
def mkModel (uri : String) (handle : Nat) (source : String) (language : String)
    (cellKind : CellKind) (outputs : List ICellOutput)
    (metadata : Option NotebookCellMetadata)
    (transientOptions : TransientOptions) : Model :=
  { uri := uri, handle := handle, source := source, language := language,
    cellKind := cellKind, outputs := outputs,
    metadata := metadata.getD emptyMetadata,
    transientOptions := transientOptions,
    textBuffer := none, contentListeners := 0, hashCache := none }

/-- The `metadata` setter: replaces the whole record, nulls the hash cache
(and fires the metadata-changed event, which carries no payload). -/
def setMetadata (m : Model) (newMetadata : NotebookCellMetadata) : Model :=
  { m with metadata := newMetadata, hashCache := none }

/-- The `language` setter: replaces the tag, nulls the hash cache (and fires
the language-changed event with the new value). -/
def setLanguage (m : Model) (newLanguage : String) : Model :=
  { m with language := newLanguage, hashCache := none }

/-- The `textBuffer` getter: returns the bound buffer if present; otherwise
builds one from the raw source and registers one content-change listener
(the listener body — null the hash, forward the content event — is inlined
into `bufferContentEdit` below). -/
def getTextBuffer (m : Model) : TextBuffer × Model :=
  match m.textBuffer with
  | some b => (b, m)
  | none =>
    let b : TextBuffer := { content := m.source, disposed := false }
    (b, { m with textBuffer := some b, contentListeners := m.contentListeners + 1 })

/-- The text the model currently holds: the buffer content once materialized,
the raw source before that. -/
def currentText (m : Model) : String :=
  match m.textBuffer with
  | some b => b.content
  | none => m.source

/-- `getValue()`: reads the full model range out of the buffer (forcing
materialization).  The buffer stores normalized content, so the full-range
read is its content. -/
def getValue (m : Model) : String × Model :=
  let p := getTextBuffer m
  (p.1.content, p.2)

/-- An edit arriving through the buffer: the buffer content changes and the
registered listener runs (`this._hash = null` plus the forwarded
content-changed event).  Forces materialization first, as any access through
the buffer does. -/
def bufferContentEdit (m : Model) (newContent : String) : Model :=
  let p := getTextBuffer m
  { p.2 with textBuffer := some { p.1 with content := newContent }, hashCache := none }

/-- `getTextLength()`: the buffer's total length. -/
def getTextLength (m : Model) : Nat × Model :=
  let p := getTextBuffer m
  (p.1.content.length, p.2)

/-- `dispose()`: swaps the buffer for the empty, already-disposed
placeholder (then runs the base-class disposal, which never throws). -/
def dispose (m : Model) : Model :=
  { m with textBuffer := some emptyDisposedTextBuffer }

/-- Modelled from the spec: the `hash` function from vs/base/common/hash is
outside src/; the spec says only that "the composite hash is a fold of
per-component hashes into one integer value", so we use a simple structural
31-fold into a 32-bit natural number.  This is the hash of a string value. -/
def hashStr (s : String) : Nat :=
  s.data.foldl (fun h c => (h * 31 + c.toNat) % 2 ^ 32) 2

/-- Hash of a numeric value (see `hashStr` for the modelling note). -/
def hashNum (n : Nat) : Nat :=
  (31 + n) % 2 ^ 32

/-- Hash of a bare function reference — a JavaScript method passed without
being called, as happens on line 117 of the source.  A function reference
carries no data, so it hashes to a constant. -/
def hashFuncRef : Nat := 5

/-- Hash of an array value, folded over the hashes of its elements (see
`hashStr` for the modelling note). -/
def hashArr (hs : List Nat) : Nat :=
  (3 * 31 + hs.foldr (fun h acc => (acc * 31 + h) % 2 ^ 32) 7) % 2 ^ 32

/-- Hash of one mime-typed representation entry. -/
def hashItem (it : IOutputItem) : Nat :=
  hashArr [hashStr it.mime, hashStr it.value]

/-- Hash of one output record. -/
def hashOutput (o : ICellOutput) : Nat :=
  hashArr [hashStr o.outputId, hashArr (o.outputs.map hashItem)]

/-- Hash entry for a present boolean metadata key (an absent key contributes
nothing, as with Object.keys). -/
def metaEntryB (k : String) : Option Bool → List Nat
  | none => []
  | some b => [hashArr [hashStr k, hashNum (cond b 1 0)]]

/-- Hash entry for a present numeric metadata key. -/
def metaEntryN (k : String) : Option Nat → List Nat
  | none => []
  | some n => [hashArr [hashStr k, hashNum n]]

/-- Hash of a metadata record: the array of its present key/value entries. -/
def hashMetadata (md : NotebookCellMetadata) : Nat :=
  hashArr (metaEntryB ("editable") md.editable
    ++ metaEntryB ("breakpointMargin") md.breakpointMargin
    ++ metaEntryB ("hasExecutionOrder") md.hasExecutionOrder
    ++ metaEntryB ("inputCollapsed") md.inputCollapsed
    ++ metaEntryB ("outputCollapsed") md.outputCollapsed
    ++ metaEntryN ("custom") md.custom)

/-- `_getPersisentMetadata()` (name as misspelled in the source): the current
metadata with every key whose transient flag is set removed; a key absent
from the metadata stays absent. -/
def getPersisentMetadata (m : Model) : NotebookCellMetadata :=
  let t := m.transientOptions.transientMetadata
  { editable := if t.editable then none else m.metadata.editable,
    breakpointMargin := if t.breakpointMargin then none else m.metadata.breakpointMargin,
    hasExecutionOrder := if t.hasExecutionOrder then none else m.metadata.hasExecutionOrder,
    inputCollapsed := if t.inputCollapsed then none else m.metadata.inputCollapsed,
    outputCollapsed := if t.outputCollapsed then none else m.metadata.outputCollapsed,
    custom := if t.custom then none else m.metadata.custom }

/-- The per-component hashes of the array the code actually hashes on line
117: `[hash(this.language), hash(this.getValue()), this._getPersisentMetadata,
this.transientOptions.transientOutputs ? [] : this._outputs]`.
The third component is `hashFuncRef` because the source passes the method
itself, not the result of calling it. -/
def hashComponentsCode (m : Model) : List Nat :=
  [hashNum (hashStr m.language),
   hashNum (hashStr (currentText m)),
   hashFuncRef,
   if m.transientOptions.transientOutputs then hashArr []
   else hashArr (m.outputs.map hashOutput)]

/-- The number the hash computation on line 117 produces from the current
model state. -/
def computeHashCode (m : Model) : Nat :=
  hashArr (hashComponentsCode m)

/-- The per-component hashes the spec describes for the composite hash:
language, full text value, the *filtered metadata snapshot*, and the outputs
(or an empty value when transient-outputs is set).  This definition follows
the spec's words, to be compared with `hashComponentsCode`, which follows
the source. -/
def hashComponentsSpec (m : Model) : List Nat :=
  [hashNum (hashStr m.language),
   hashNum (hashStr (currentText m)),
   hashMetadata (getPersisentMetadata m),
   if m.transientOptions.transientOutputs then hashArr []
   else hashArr (m.outputs.map hashOutput)]

/-- The composite hash the spec describes, over the current model state. -/
def computeHashSpec (m : Model) : Nat :=
  hashArr (hashComponentsSpec m)

/-- `getHashValue()`: returns the cached hash when non-null; otherwise
computes the composite hash (forcing buffer materialization through
`getValue()`), caches it and returns it. -/
def getHashValue (m : Model) : Nat × Model :=
  match m.hashCache with
  | some h => (h, m)
  | none =>
    let p := getValue m
    let h := hashArr [hashNum (hashStr p.2.language),
      hashNum (hashStr p.1),
      hashFuncRef,
      if p.2.transientOptions.transientOutputs then hashArr []
      else hashArr (p.2.outputs.map hashOutput)]
    (h, { p.2 with hashCache := some h })

/-- A splice operation, `NotebookCellOutputsSplice`: start index, delete
count, and the records to insert. -/
abbrev OutputsSplice := Nat × Nat × List ICellOutput

/-- JavaScript `Array.prototype.splice` for non-negative arguments: the start
index is clamped to the length, the delete count to the remaining elements;
the removed run is replaced by the inserted items. -/
def listSplice {α : Type} (xs : List α) (start deleteCount : Nat)
    (items : List α) : List α :=
  xs.take start ++ items ++ xs.drop (min start xs.length + deleteCount)

/-- The loop body of spliceNotebookCellOutputs: fold the splices over the
output list in the reversed order the source applies them. -/
def applySpliceList {α : Type} (xs : List α)
    (splices : List (Nat × Nat × List α)) : List α :=
  splices.reverse.foldl (fun acc sp => listSplice acc sp.1 sp.2.1 sp.2.2) xs

/-- Result of a spliceNotebookCellOutputs call: the updated model, the list
of events fired on the outputs channel (each event carries one splice list),
and the content of the caller-supplied splices array after the call
(`Array.prototype.reverse` reverses it in place). -/
structure SpliceResult where
  model : Model
  fired : List (List OutputsSplice)
  arg : List OutputsSplice
deriving DecidableEq

/-- `spliceNotebookCellOutputs(splices)`: reverses the splices array in
place, applies each splice to the output list in that reversed order, then
fires a single outputs-changed event carrying the (reversed) array. -/
def spliceNotebookCellOutputs (m : Model) (splices : List OutputsSplice) :
    SpliceResult :=
  let rev := splices.reverse
  { model := { m with outputs := applySpliceList m.outputs splices },
    fired := [rev],
    arg := rev }

/-- The simultaneous reading of a splice batch, following the spec's words:
every splice's start index is interpreted against the pre-batch list.  The
parameter `k` is the absolute pre-batch position of the head of `xs`: the
head splice keeps the prefix up to its start, inserts its items, and the
rest of the batch is read against the remainder of the pre-batch list. -/
def simulSpliceFrom {α : Type} :
    Nat → List (Nat × Nat × List α) → List α → List α
  | _, [], xs => xs
  | k, (s, d, ins) :: rest, xs =>
    xs.take (s - k) ++ ins ++ simulSpliceFrom (s + d) rest (xs.drop (s + d - k))

/-- The simultaneous reading of a splice batch against the pre-batch list. -/
def simulSplice {α : Type} (splices : List (Nat × Nat × List α))
    (xs : List α) : List α :=
  simulSpliceFrom 0 splices xs

/-- Wellformedness of the tail of a splice batch whose preceding splices end
at position `lo`, against a pre-batch list of length `n`: every splice's
range fits inside the pre-batch list and starts at or after the end of the
one before it (disjoint ranges, listed in increasing start order). -/
def splicesOkFrom {α : Type} :
    Nat → List (Nat × Nat × List α) → Nat → Bool
  | _, [], _ => true
  | lo, (s, d, _) :: rest, n =>
    decide (lo ≤ s) && decide (s + d ≤ n) && splicesOkFrom (s + d) rest n

/-- Wellformedness of a splice batch against a pre-batch list of length `n`:
disjoint in-bounds ranges in increasing start order.  This is what "indices
all computed against the pre-batch list" requires of a batch. -/
def splicesOk {α : Type} (splices : List (Nat × Nat × List α)) (n : Nat) :
    Bool :=
  splicesOkFrom 0 splices n

/-- `getEvaluatedMetadata(documentMetadata)`: resolves `editable` and
`hasExecutionOrder` by preferring the cell-level value and falling back to
the document default, then overlays both onto a copy of the cell metadata.
The model is returned untouched: the call reads but never writes it. -/
def getEvaluatedMetadata (m : Model)
    (documentMetadata : NotebookDocumentMetadata) :
    NotebookCellMetadata × Model :=
  let editable := m.metadata.editable.getD documentMetadata.cellEditable
  let hasExecutionOrder :=
    m.metadata.hasExecutionOrder.getD documentMetadata.cellHasExecutionOrder
  ({ m.metadata with editable := some editable,
                     hasExecutionOrder := some hasExecutionOrder }, m)

/-- Modelled from the spec: `UUID.generateUuid` (vs/base/common/uuid, outside
src/) returns a freshly generated identifier.  We model the generator as a
counter producing distinct identifier strings. -/
def generateUuid (ctr : Nat) : String × Nat :=
  ("uuid-" ++ toString ctr, ctr + 1)

/-- The outputs mapping inside cloneNotebookCellTextModel: each output keeps
its representation entries but receives a freshly generated identifier
("paste should generate new outputId").  The generator counter is threaded
through the list in order. -/
def cloneOutputs : List ICellOutput → Nat → List ICellOutput
  | [], _ => []
  | o :: rest, ctr =>
    { outputId := (generateUuid ctr).1, outputs := o.outputs }
      :: cloneOutputs rest (generateUuid ctr).2

/-- `cloneMetadata(cell)`: picks the six fixed metadata fields. -/
def cloneMetadata (cell : Model) : NotebookCellMetadata :=
  { editable := cell.metadata.editable,
    breakpointMargin := cell.metadata.breakpointMargin,
    hasExecutionOrder := cell.metadata.hasExecutionOrder,
    inputCollapsed := cell.metadata.inputCollapsed,
    outputCollapsed := cell.metadata.outputCollapsed,
    custom := cell.metadata.custom }

/-- The detached snapshot produced by cloneNotebookCellTextModel. -/
structure ClonedCell where
  source : String
  language : String
  cellKind : CellKind
  outputs : List ICellOutput
  metadata : NotebookCellMetadata
deriving DecidableEq

/-- `cloneNotebookCellTextModel(cell)`: a detached snapshot of the current
value, language, kind, outputs (with fresh identifiers) and the fixed
metadata fields.  The UUID generator counter is passed in and returned. -/
def cloneNotebookCellTextModel (cell : Model) (ctr : Nat) :
    ClonedCell × Nat :=
  ({ source := (getValue cell).1,
     language := cell.language,
     cellKind := cell.cellKind,
     outputs := cloneOutputs cell.outputs ctr,
     metadata := cloneMetadata cell },
   ctr + cell.outputs.length)

/-- The operations a host performs on a live cell between construction and
disposal that the hash-cache claims quantify over: the three invalidating
mutations (language set, metadata set, content edit through the buffer) and
the cache-filling or buffer-materializing reads. -/
inductive Step where
  | setLang : String → Step
  | setMeta : NotebookCellMetadata → Step
  | edit : String → Step
  | readHash : Step
  | readBuffer : Step

/-- Effect of one step on the model state. -/
def applyStep (m : Model) : Step → Model
  | .setLang s => setLanguage m s
  | .setMeta md => setMetadata m md
  | .edit s => bufferContentEdit m s
  | .readHash => (getHashValue m).2
  | .readBuffer => (getTextBuffer m).2

/-- A run of the model: a sequence of steps applied from a starting state. -/
def run (m : Model) (l : List Step) : Model :=
  l.foldl applyStep m

/-- The hash-cache invariant the code maintains: whenever the cache is
non-null it holds exactly the hash the code would compute from the current
state. -/
def HashInv (m : Model) : Prop :=
  ∀ h, m.hashCache = some h → h = computeHashCode m

/-- All-false transient flags: nothing is excluded from hashing. -/
def noTransient : TransientCellMetadata :=
  { editable := false, breakpointMargin := false, hasExecutionOrder := false,
    inputCollapsed := false, outputCollapsed := false, custom := false }

/-- Transient options hashing everything (outputs included). -/
def sampleOpts : TransientOptions :=
  { transientOutputs := false, transientMetadata := noTransient }

/-- An output record with a given id and no representation entries. -/
def outputNamed (s : String) : ICellOutput :=
  { outputId := s, outputs := [] }

/-- A concrete cell with three outputs, used by the splice claims. -/
def sampleModel3 : Model :=
  mkModel ("nb.ipynb") 0 ("src") ("python") CellKind.code
    [outputNamed ("x0"), outputNamed ("x1"), outputNamed ("x2")]
    none sampleOpts

/-- The first splice of the spec's worked example: replace one record at
index 0 by A. -/
def spliceA : OutputsSplice := (0, 1, [outputNamed ("A")])

/-- The second splice of the spec's worked example: insert B at index 2. -/
def spliceB : OutputsSplice := (2, 0, [outputNamed ("B")])

/-- Metadata carrying only the (non-transient) custom value 1. -/
def mdCustom1 : NotebookCellMetadata :=
  { emptyMetadata with custom := some 1 }

/-- Metadata carrying only the (non-transient) custom value 2. -/
def mdCustom2 : NotebookCellMetadata :=
  { emptyMetadata with custom := some 2 }

/-- A concrete cell whose metadata holds the custom value 1. -/
def cellCustom1 : Model :=
  mkModel ("nb.ipynb") 0 ("x") ("python") CellKind.code [] (some mdCustom1)
    sampleOpts

/-- The same cell with the custom value 2 instead. -/
def cellCustom2 : Model :=
  mkModel ("nb.ipynb") 0 ("x") ("python") CellKind.code [] (some mdCustom2)
    sampleOpts

/-- Materializing the buffer changes no hashing-relevant field, leaves the
cache alone, and yields a buffer holding the model's current text. -/
theorem getTextBuffer_fields (m : Model) :
    (getTextBuffer m).2.language = m.language ∧
    (getTextBuffer m).2.outputs = m.outputs ∧
    (getTextBuffer m).2.transientOptions = m.transientOptions ∧
    (getTextBuffer m).2.hashCache = m.hashCache ∧
    currentText (getTextBuffer m).2 = currentText m ∧
    (getTextBuffer m).1.content = currentText m := by
  cases h : m.textBuffer <;> simp [getTextBuffer, currentText, h]

/-- C5: the text buffer is constructed at most once: the first access on a
freshly constructed model builds the buffer from the raw source and
registers exactly one content-change listener, and any subsequent access
returns the same buffer and the unchanged model (no reconstruction, no
re-subscription). -/
theorem textBuffer_built_once :
    (∀ (uri : String) (handle : Nat) (source language : String)
       (cellKind : CellKind) (outputs : List ICellOutput)
       (metadata : Option NotebookCellMetadata) (t : TransientOptions),
       (getTextBuffer (mkModel uri handle source language cellKind outputs
          metadata t)).1.content = source ∧
       (getTextBuffer (mkModel uri handle source language cellKind outputs
          metadata t)).2.contentListeners = 1) ∧
    (∀ m : Model,
       getTextBuffer (getTextBuffer m).2 =
         ((getTextBuffer m).1, (getTextBuffer m).2)) := by
  constructor
  · intro uri handle source language cellKind outputs metadata t
    simp [mkModel, getTextBuffer]
  · intro m
    cases h : m.textBuffer <;> simp [getTextBuffer, h]

/-- C8: after dispose() every buffer access observes the empty disposed
placeholder, so getTextLength() returns 0; a second dispose() is a total,
idempotent operation (nothing can throw in it). -/
theorem dispose_empties_and_idempotent (m : Model) :
    (getTextLength (dispose m)).1 = 0 ∧ dispose (dispose m) = dispose m := by
  simp [dispose, getTextLength, getTextBuffer, emptyDisposedTextBuffer]

/-- C9: two consecutive getHashValue() calls with no intervening mutation
return the same value — the second returns the memoized result, whatever
state the model is in. -/
theorem getHashValue_memoized (m : Model) :
    (getHashValue (getHashValue m).2).1 = (getHashValue m).1 := by
  cases h : m.hashCache with
  | some v => simp [getHashValue, h]
  | none => simp [getHashValue, h]

/-- C10: spliceNotebookCellOutputs reverses the caller-supplied splices
array in place, so after the call the caller's array (and the payload of
the single fired event, which is that same array) holds the splices in
reverse submission order. -/
theorem spliceOutputs_reverses_argument (m : Model)
    (splices : List OutputsSplice) :
    (spliceNotebookCellOutputs m splices).arg = splices.reverse ∧
    (spliceNotebookCellOutputs m splices).fired =
      [(spliceNotebookCellOutputs m splices).arg] := by
  simp [spliceNotebookCellOutputs]

/-- C1 counterexample: on a two-splice batch the single fired event does not
carry the original, unreversed splice list — the code fires the in-place
reversed array. -/
theorem spliceOutputs_payload_not_original :
    (spliceNotebookCellOutputs sampleModel3 [spliceA, spliceB]).fired ≠
      [[spliceA, spliceB]] := by
  decide

/-- C1 amended: after all splices are applied exactly one outputs-changed
event is fired, and its payload is the splice list in reverse submission
order (the caller's array, reversed in place) rather than the original
order. -/
theorem spliceOutputs_single_reversed_payload (m : Model)
    (splices : List OutputsSplice) :
    (spliceNotebookCellOutputs m splices).fired.length = 1 ∧
    (spliceNotebookCellOutputs m splices).fired = [splices.reverse] := by
  simp [spliceNotebookCellOutputs]

/-- C6: getEvaluatedMetadata resolves editable and hasExecutionOrder by
preferring the cell-level value when present and falling back to the
document default otherwise, and returns the model (hence its stored
metadata) unchanged. -/
theorem getEvaluatedMetadata_resolution (m : Model)
    (d : NotebookDocumentMetadata) :
    (m.metadata.editable = none →
       (getEvaluatedMetadata m d).1.editable = some d.cellEditable) ∧
    (∀ b, m.metadata.editable = some b →
       (getEvaluatedMetadata m d).1.editable = some b) ∧
    (m.metadata.hasExecutionOrder = none →
       (getEvaluatedMetadata m d).1.hasExecutionOrder =
         some d.cellHasExecutionOrder) ∧
    (∀ b, m.metadata.hasExecutionOrder = some b →
       (getEvaluatedMetadata m d).1.hasExecutionOrder = some b) ∧
    (getEvaluatedMetadata m d).2 = m := by
  refine ⟨fun h => ?_, fun b h => ?_, fun h => ?_, fun b h => ?_, rfl⟩ <;>
    simp [getEvaluatedMetadata, h]

/-- Metadata whose editable flag is explicitly true. -/
def mdEditableTrue : NotebookCellMetadata :=
  { emptyMetadata with editable := some true }

/-- A cell whose metadata leaves editable unset. -/
def cellUnset : Model :=
  mkModel ("nb.ipynb") 0 ("x") ("python") CellKind.code [] none sampleOpts

/-- A cell whose metadata sets editable to true. -/
def cellEditTrue : Model :=
  mkModel ("nb.ipynb") 0 ("x") ("python") CellKind.code []
    (some mdEditableTrue) sampleOpts

/-- Document defaults that forbid editing. -/
def docNoEdit : NotebookDocumentMetadata :=
  { cellEditable := false, cellHasExecutionOrder := false }

/-- Witness for C6: with editable unset and cellEditable false the evaluated
editable is false; with editable true it is true despite the default. -/
theorem getEvaluatedMetadata_resolution_witness :
    (getEvaluatedMetadata cellUnset docNoEdit).1.editable = some false ∧
    (getEvaluatedMetadata cellEditTrue docNoEdit).1.editable = some true := by
  constructor
  · exact (getEvaluatedMetadata_resolution cellUnset docNoEdit).1 (by decide)
  · exact (getEvaluatedMetadata_resolution cellEditTrue docNoEdit).2.1 true
      (by decide)

/-- C2 (code bug): getHashValue passes `this._getPersisentMetadata` without
calling it, so the metadata component of the hash is a constant function
reference: two cells that differ only in a non-transient metadata value get
the same hash, even though their filtered metadata snapshots differ and the
composite hash the spec describes would separate them. -/
theorem getHashValue_ignores_metadata :
    (getHashValue cellCustom1).1 = (getHashValue cellCustom2).1 ∧
    getPersisentMetadata cellCustom1 ≠ getPersisentMetadata cellCustom2 ∧
    computeHashSpec cellCustom1 ≠ computeHashSpec cellCustom2 := by
  refine ⟨by decide, by decide, by decide⟩

/-- Reading the value changes no hashing-relevant field and returns the
model's current text. -/
theorem getValue_fields (m : Model) :
    (getValue m).1 = currentText m ∧
    (getValue m).2.language = m.language ∧
    (getValue m).2.outputs = m.outputs ∧
    (getValue m).2.transientOptions = m.transientOptions ∧
    (getValue m).2.hashCache = m.hashCache ∧
    currentText (getValue m).2 = currentText m := by
  obtain ⟨h1, h2, h3, h4, h5, h6⟩ := getTextBuffer_fields m
  exact ⟨h6, h1, h2, h3, h4, h5⟩

/-- The code's composite hash depends only on the language, the current
text, the transient options and the outputs. -/
theorem computeHashCode_congr (m m' : Model)
    (h1 : m'.language = m.language) (h2 : currentText m' = currentText m)
    (h3 : m'.transientOptions = m.transientOptions)
    (h4 : m'.outputs = m.outputs) :
    computeHashCode m' = computeHashCode m := by
  simp [computeHashCode, hashComponentsCode, h1, h2, h3, h4]

/-- Overwriting the cache field does not change what the code would hash. -/
theorem computeHashCode_setCache (m : Model) (v : Option Nat) :
    computeHashCode { m with hashCache := v } = computeHashCode m := rfl

/-- A getHashValue() call on an empty cache returns the hash the code
computes from the current state and stores it in the cache. -/
theorem getHashValue_none (m : Model) (hc : m.hashCache = none) :
    (getHashValue m).1 = computeHashCode m ∧
    (getHashValue m).2 =
      { (getValue m).2 with hashCache := some (computeHashCode m) } := by
  obtain ⟨g1, g2, g3, g4, g5, g6⟩ := getValue_fields m
  simp [getHashValue, hc, computeHashCode, hashComponentsCode, g1, g2, g3, g4]

/-- One step preserves the hash-cache invariant. -/
theorem hashInv_applyStep (m : Model) (s : Step) (hm : HashInv m) :
    HashInv (applyStep m s) := by
  cases s with
  | setLang v => intro x hx; simp [applyStep, setLanguage] at hx
  | setMeta v => intro x hx; simp [applyStep, setMetadata] at hx
  | edit v => intro x hx; simp [applyStep, bufferContentEdit] at hx
  | readBuffer =>
    intro x hx
    simp only [applyStep] at hx ⊢
    obtain ⟨l1, l2, l3, l4, l5, _⟩ := getTextBuffer_fields m
    have hx' : m.hashCache = some x := by
      rw [← l4]; exact hx
    rw [computeHashCode_congr m (getTextBuffer m).2 l1 l5 l3 l2]
    exact hm x hx'
  | readHash =>
    cases hc : m.hashCache with
    | some v =>
      have hst : applyStep m Step.readHash = m := by
        simp [applyStep, getHashValue, hc]
      rw [hst]; exact hm
    | none =>
      obtain ⟨_, h2⟩ := getHashValue_none m hc
      obtain ⟨g1, g2, g3, g4, g5, g6⟩ := getValue_fields m
      intro x hx
      have hst : applyStep m Step.readHash =
          { (getValue m).2 with hashCache := some (computeHashCode m) } := by
        simp [applyStep, h2]
      rw [hst] at hx ⊢
      have hxeq : x = computeHashCode m := by
        simp at hx; omega
      rw [computeHashCode_setCache,
        computeHashCode_congr m (getValue m).2 g2 g6 g4 g3]
      exact hxeq

/-- Any run of steps from a state satisfying the hash-cache invariant stays
inside it. -/
theorem hashInv_run (m : Model) (l : List Step) (hm : HashInv m) :
    HashInv (run m l) := by
  induction l generalizing m with
  | nil => exact hm
  | cons s l ih => exact ih (applyStep m s) (hashInv_applyStep m s hm)

/-- C4 counterexample: a reachable state (one getHashValue() call on a fresh
cell with a non-transient metadata value) whose non-null cached hash is the
hash the code computes — whose metadata component is the bare method
reference — and differs from the hash of the (language, text, filtered
metadata snapshot, outputs) inputs the claim describes. -/
theorem hashCache_not_spec_hash :
    (run cellCustom1 [Step.readHash]).hashCache =
      some (computeHashCode (run cellCustom1 [Step.readHash])) ∧
    computeHashCode (run cellCustom1 [Step.readHash]) ≠
      computeHashSpec (run cellCustom1 [Step.readHash]) := by
  refine ⟨by decide, by decide⟩

/-- C4 amended: on every state reached from a constructed cell by language
sets, metadata sets, buffer content edits and reads, a non-null cached hash
equals the hash the code computes from the current state (whose metadata
component is the constant method reference, not the filtered snapshot); and
each of the three invalidating mutations sets the cache to null. -/
theorem hashCache_invariant_code :
    (∀ (uri : String) (handle : Nat) (source language : String)
       (cellKind : CellKind) (outputs : List ICellOutput)
       (metadata : Option NotebookCellMetadata) (t : TransientOptions)
       (l : List Step),
       HashInv (run (mkModel uri handle source language cellKind outputs
         metadata t) l)) ∧
    (∀ (m : Model) (s : String), (setLanguage m s).hashCache = none) ∧
    (∀ (m : Model) (md : NotebookCellMetadata),
       (setMetadata m md).hashCache = none) ∧
    (∀ (m : Model) (s : String), (bufferContentEdit m s).hashCache = none) := by
  refine ⟨?_, fun m s => rfl, fun m md => rfl, fun m s => ?_⟩
  · intro uri handle source language cellKind outputs metadata t l
    refine hashInv_run _ l ?_
    intro x hx
    simp [mkModel] at hx
  · simp [bufferContentEdit]

/-- Witness for C4: after one getHashValue() call on a concrete fresh cell
the cache is non-null and holds exactly the hash the code computes there. -/
theorem hashCache_invariant_code_witness :
    (run cellCustom1 [Step.readHash]).hashCache =
      some (computeHashCode (run cellCustom1 [Step.readHash])) := by
  have h := (hashCache_invariant_code.1 ("nb.ipynb") 0 ("x") ("python")
    CellKind.code [] (some mdCustom1) sampleOpts [Step.readHash])
    (computeHashCode (run cellCustom1 [Step.readHash]))
  have hc : (run cellCustom1 [Step.readHash]).hashCache =
      some (computeHashCode cellCustom1) := by decide
  rw [hc]
  have : computeHashCode cellCustom1 =
      computeHashCode (run cellCustom1 [Step.readHash]) := by decide
  rw [this]

/-- Unfolding lemma: the head splice of a batch is applied last. -/
theorem applySpliceList_cons {α : Type} (xs : List α)
    (sp : Nat × Nat × List α) (l : List (Nat × Nat × List α)) :
    applySpliceList xs (sp :: l) =
      listSplice (applySpliceList xs l) sp.1 sp.2.1 sp.2.2 := by
  simp [applySpliceList, List.reverse_cons, List.foldl_append]

/-- A splice whose range lies inside the prefix `P` and ends exactly at its
end keeps the tail `T` intact. -/
theorem listSplice_exact_tail {α : Type} (P T : List α) (s d : Nat)
    (ins : List α) (h : s + d = P.length) :
    listSplice (P ++ T) s d ins = P.take s ++ ins ++ T := by
  unfold listSplice
  have hs : s ≤ P.length := by omega
  have h1 : List.take s (P ++ T) = List.take s P := by
    rw [List.take_append_eq_append_take]
    have : s - P.length = 0 := by omega
    simp [this]
  have h2 : min s (P ++ T).length + d = P.length := by
    simp [List.length_append]; omega
  rw [h1, h2, List.drop_left]

/-- A splice starting at or after the end of the prefix `P` keeps `P` intact
and acts on the tail with a rebased start index. -/
theorem listSplice_append_left {α : Type} (P T : List α) (s d : Nat)
    (ins : List α) (hs : P.length ≤ s) :
    listSplice (P ++ T) s d ins = P ++ listSplice T (s - P.length) d ins := by
  unfold listSplice
  have h1 : List.take s (P ++ T) = P ++ List.take (s - P.length) T := by
    rw [List.take_append_eq_append_take, List.take_of_length_le hs]
  have h2 : min s (P ++ T).length + d =
      P.length + (min (s - P.length) T.length + d) := by
    simp [List.length_append]; omega
  have h3 : List.drop (min s (P ++ T).length + d) (P ++ T) =
      List.drop (min (s - P.length) T.length + d) T := by
    rw [h2, List.drop_append_eq_append_drop]
    have hp : List.drop (P.length + (min (s - P.length) T.length + d)) P = [] :=
      List.drop_of_length_le (by omega)
    have hq : P.length + (min (s - P.length) T.length + d) - P.length =
        min (s - P.length) T.length + d := by omega
    rw [hp, hq]; rfl
  rw [h1, h3]
  simp [List.append_assoc]

/-- Applying a batch of splices that all start at or after position `c`
keeps the first `c` elements intact and acts on the tail with rebased
indices. -/
theorem applySpliceList_split {α : Type} (l : List (Nat × Nat × List α))
    (ys : List α) (c : Nat) (hc : c ≤ ys.length)
    (hl : ∀ sp ∈ l, c ≤ sp.1) :
    applySpliceList ys l =
      ys.take c ++ applySpliceList (ys.drop c)
        (l.map fun sp => (sp.1 - c, sp.2.1, sp.2.2)) := by
  induction l with
  | nil => simp [applySpliceList, List.take_append_drop]
  | cons sp l ih =>
    have htl : ∀ x ∈ l, c ≤ x.1 := fun x hx => hl x (List.mem_cons_of_mem sp hx)
    have hsp : c ≤ sp.1 := hl sp (List.mem_cons_self sp l)
    rw [applySpliceList_cons, ih htl, List.map_cons, applySpliceList_cons]
    have hlen : (ys.take c).length = c := by
      simp [List.length_take]; omega
    rw [listSplice_append_left (ys.take c) _ sp.1 sp.2.1 sp.2.2 (by omega)]
    rw [hlen]

/-- Every splice in a wellformed batch tail starts at or after `lo`. -/
theorem splicesOkFrom_le {α : Type} (l : List (Nat × Nat × List α))
    (lo n : Nat) (h : splicesOkFrom lo l n = true) :
    ∀ sp ∈ l, lo ≤ sp.1 := by
  induction l generalizing lo with
  | nil => intro sp hsp; cases hsp
  | cons hd l ih =>
    obtain ⟨s, d, i⟩ := hd
    simp only [splicesOkFrom, Bool.and_eq_true, decide_eq_true_eq] at h
    intro sp hsp
    rcases List.mem_cons.mp hsp with heq | hmem
    · rw [heq]; exact h.1.1
    · have := ih (s + d) h.2 sp hmem
      omega

/-- Applying a wellformed batch (with indices rebased by the absolute
position `k` of the working list) in reverse order equals the simultaneous
reading of the batch against the pre-batch list. -/
theorem applySpliceList_eq_simulFrom {α : Type}
    (l : List (Nat × Nat × List α)) (k : Nat) (ys : List α)
    (hok : splicesOkFrom k l (k + ys.length) = true) :
    applySpliceList ys (l.map fun sp => (sp.1 - k, sp.2.1, sp.2.2)) =
      simulSpliceFrom k l ys := by
  induction l generalizing k ys with
  | nil => simp [applySpliceList, simulSpliceFrom]
  | cons hd l ih =>
    obtain ⟨s, d, ins⟩ := hd
    simp only [splicesOkFrom, Bool.and_eq_true, decide_eq_true_eq] at hok
    obtain ⟨⟨hks, hbound⟩, hrest⟩ := hok
    have hstarts : ∀ sp ∈ l, s + d ≤ sp.1 := splicesOkFrom_le l (s + d) _ hrest
    have hc' : s + d - k ≤ ys.length := by omega
    have hstarts' : ∀ sp ∈ (l.map fun sp => (sp.1 - k, sp.2.1, sp.2.2)),
        s + d - k ≤ sp.1 := by
      intro sp hsp
      obtain ⟨x, hx, hxeq⟩ := List.mem_map.mp hsp
      have := hstarts x hx
      rw [← hxeq]
      simp
      omega
    rw [List.map_cons, applySpliceList_cons,
      applySpliceList_split _ ys (s + d - k) hc' hstarts']
    have hmapmap : ((l.map fun sp => (sp.1 - k, sp.2.1, sp.2.2)).map
        fun sp => (sp.1 - (s + d - k), sp.2.1, sp.2.2)) =
        l.map fun sp => (sp.1 - (s + d), sp.2.1, sp.2.2) := by
      rw [List.map_map]
      refine List.map_congr_left ?_
      intro x hx
      simp [Function.comp]
      omega
    rw [hmapmap]
    have hok' : splicesOkFrom (s + d) l
        ((s + d) + (ys.drop (s + d - k)).length) = true := by
      have hlen : (s + d) + (ys.drop (s + d - k)).length = k + ys.length := by
        simp [List.length_drop]; omega
      rw [hlen]; exact hrest
    have hlenP : (ys.take (s + d - k)).length = s + d - k := by
      simp [List.length_take]; omega
    rw [listSplice_exact_tail (ys.take (s + d - k)) _ (s - k) d ins
      (by rw [hlenP]; omega)]
    rw [ih (s + d) (ys.drop (s + d - k)) hok']
    simp only [simulSpliceFrom, List.take_take]
    rw [Nat.min_eq_left (show s - k ≤ s + d - k by omega)]

/-- C3: on a batch whose splices were all computed against the pre-batch
output list (in-bounds, disjoint ranges in increasing start order),
spliceNotebookCellOutputs — which applies the splices in reverse submission
order — leaves the output list in the state obtained by interpreting every
splice's start index against the pre-batch list. -/
theorem spliceOutputs_simultaneous_semantics (m : Model)
    (splices : List OutputsSplice)
    (hok : splicesOk splices m.outputs.length = true) :
    (spliceNotebookCellOutputs m splices).model.outputs =
      simulSplice splices m.outputs := by
  have h := applySpliceList_eq_simulFrom splices 0 m.outputs
    (by simpa [splicesOk] using hok)
  have hfun : (fun sp : OutputsSplice => (sp.1 - 0, sp.2.1, sp.2.2)) = id := by
    funext sp
    obtain ⟨a, b, c⟩ := sp
    rfl
  rw [hfun, List.map_id] at h
  simpa [spliceNotebookCellOutputs, simulSplice] using h

/-- Witness for C3: the spec's worked example — splices (0,1,[A]) and
(2,0,[B]) against a three-output list — is wellformed, and both the code's
reverse-order application and the simultaneous reading produce
[A, x1, B, x2]. -/
theorem spliceOutputs_simultaneous_semantics_witness :
    splicesOk [spliceA, spliceB] sampleModel3.outputs.length = true ∧
    (spliceNotebookCellOutputs sampleModel3 [spliceA, spliceB]).model.outputs =
      [outputNamed ("A"), outputNamed ("x1"), outputNamed ("B"),
       outputNamed ("x2")] ∧
    simulSplice [spliceA, spliceB] sampleModel3.outputs =
      [outputNamed ("A"), outputNamed ("x1"), outputNamed ("B"),
       outputNamed ("x2")] := by
  refine ⟨by decide, ?_, by decide⟩
  rw [spliceOutputs_simultaneous_semantics sampleModel3 [spliceA, spliceB]
    (by decide)]
  decide

/-- The cloned outputs carry the source's representation entries, element
for element. -/
theorem cloneOutputs_content (l : List ICellOutput) (ctr : Nat) :
    (cloneOutputs l ctr).map ICellOutput.outputs =
      l.map ICellOutput.outputs := by
  induction l generalizing ctr with
  | nil => rfl
  | cons o rest ih => simp [cloneOutputs, ih]

/-- Every cloned output identifier comes from the generator, with a counter
taken from the range handed to the clone. -/
theorem cloneOutputs_ids (l : List ICellOutput) (ctr : Nat) :
    ∀ c ∈ cloneOutputs l ctr, ∃ n, ctr ≤ n ∧ n < ctr + l.length ∧
      c.outputId = (generateUuid n).1 := by
  induction l generalizing ctr with
  | nil => intro c hc; cases hc
  | cons o rest ih =>
    intro c hc
    rcases List.mem_cons.mp hc with heq | hmem
    · exact ⟨ctr, Nat.le_refl ctr, by simp, by rw [heq]⟩
    · obtain ⟨n, h1, h2, h3⟩ := ih (ctr + 1) c hmem
      refine ⟨n, by omega, ?_, h3⟩
      simp only [List.length_cons]
      omega

/-- C7: cloning a model produces output records whose representation
entries equal the source's element for element, and — provided the freshly
generated identifiers never collide with the source's identifiers, which is
the generator's guarantee — every cloned identifier is distinct from every
identifier in the source's output list. -/
theorem clone_preserves_content_fresh_ids (cell : Model) (ctr : Nat)
    (hfresh : ∀ n, n < cell.outputs.length →
      ∀ o ∈ cell.outputs, (generateUuid (ctr + n)).1 ≠ o.outputId) :
    ((cloneNotebookCellTextModel cell ctr).1.outputs.map ICellOutput.outputs =
      cell.outputs.map ICellOutput.outputs) ∧
    (∀ c ∈ (cloneNotebookCellTextModel cell ctr).1.outputs,
      ∀ o ∈ cell.outputs, c.outputId ≠ o.outputId) := by
  constructor
  · exact cloneOutputs_content cell.outputs ctr
  · intro c hc o ho
    obtain ⟨n, h1, h2, h3⟩ := cloneOutputs_ids cell.outputs ctr c hc
    rw [h3]
    have hne := hfresh (n - ctr) (by omega) o ho
    have heq : ctr + (n - ctr) = n := by omega
    rw [heq] at hne
    exact hne

/-- A concrete two-output cell for the clone witness. -/
def cloneCell : Model :=
  mkModel ("nb.ipynb") 1 ("print") ("python") CellKind.code
    [{ outputId := "a", outputs := [{ mime := "text/plain", value := "1" }] },
     { outputId := "b", outputs := [] }]
    none sampleOpts

/-- Witness for C7: cloning the concrete two-output cell (whose identifiers
are not generator-produced) preserves both outputs' entries and assigns
identifiers distinct from "a" and "b". -/
theorem clone_preserves_content_fresh_ids_witness :
    (∀ n, n < cloneCell.outputs.length →
      ∀ o ∈ cloneCell.outputs, (generateUuid (0 + n)).1 ≠ o.outputId) ∧
    ((cloneNotebookCellTextModel cloneCell 0).1.outputs.map
        ICellOutput.outputs = cloneCell.outputs.map ICellOutput.outputs) ∧
    (∀ c ∈ (cloneNotebookCellTextModel cloneCell 0).1.outputs,
      ∀ o ∈ cloneCell.outputs, c.outputId ≠ o.outputId) := by
  refine ⟨by decide, ?_⟩
  exact clone_preserves_content_fresh_ids cloneCell 0 (by decide)

end NotebookCell
